import Mathlib

/-!
Shallow embedding of the istring crate (files src/istring.rs, src/common.rs,
src/small.rs), specialised to the 64-bit little-endian target the constants in
the source select (INLINE_CAPACITY = 23 for IString, 15 for SmallString,
MAX_CAPACITY = 2^63 - 1).

Modelling conventions:
- byte buffers are lists of Nat; machine words are Nat with explicit % 2^w
  arithmetic where bit-level aliasing matters;
- the union of the Inline and Heap shapes is a sum type together with explicit
  reinterpretation functions for the places where the code reads one shape's
  fields while the other shape is stored (little-endian byte overlap);
- the allocator is explicit: operations return a list of alloc/dealloc events;
- a fatal outcome (failed assertion, allocation failure, undefined behaviour
  such as reading through a reinterpreted garbage pointer) is Option.none.
-/

set_option autoImplicit false

/-- Discriminant bit, the source constant IS_INLINE = 1 << 7. It is bit 7 of the
inline length byte, which aliases bit 63 of the heap length word. -/
def IS_INLINE : Nat := 128

/-- Source constant LEN_MASK = !IS_INLINE: mask of the low 7 bits. -/
def LEN_MASK : Nat := 127

/-- Inline capacity of IString on a 64-bit target (source constant). -/
def INLINE_CAPACITY : Nat := 23

/-- Source constant MAX_CAPACITY = (1 << 63) - 1 on a 64-bit target. -/
def MAX_CAPACITY : Nat := 2 ^ 63 - 1

/-- Bit test b AND IS_INLINE != 0 in arithmetic form: bit 7 of b. -/
def hasBit7 (b : Nat) : Bool := b / 128 % 2 == 1

/-- Arithmetic form of b AND LEN_MASK: the low 7 bits of b. -/
def low7 (b : Nat) : Nat := b % 128

/-- Arithmetic form of (n as u8) OR IS_INLINE: low 7 bits of n with bit 7 set. -/
def withBit7 (n : Nat) : Nat := n % 128 + IS_INLINE

/-- Little-endian byte decomposition of a 64-bit word. -/
def le64 (n : Nat) : List Nat := (List.range 8).map (fun i => n / 256 ^ i % 256)

/-- Read a little-endian byte list back as a number. -/
def fromLE (bs : List Nat) : Nat := bs.foldr (fun b acc => b % 256 + 256 * acc) 0

/-- Rust usize::next_power_of_two: the least power of two that is >= n (1 for n <= 1). -/
def next_power_of_two (n : Nat) : Nat := if n ≤ 1 then 1 else 2 ^ (Nat.log2 (n - 1) + 1)

/-- Overwrite buf[off .. off + t.length] with t: the model of slice writes via
copy_from_slice / copy_nonoverlapping into an offset of a buffer. -/
def writeAt (buf : List Nat) (off : Nat) (t : List Nat) : List Nat :=
  buf.take off ++ t ++ buf.drop (off + t.length)

/-- Allocator interaction events, recording allocations and frees so that
claims about buffer release and double-free can be stated. -/
inductive Event
  | alloc (p : Nat) (size : Nat)
  | dealloc (p : Nat) (size : Nat)
deriving DecidableEq

/-- Address standing for a fresh allocation (pointer identity is abstract in
the model; freshness is immaterial to the stated claims). -/
def freshPtr : Nat := 2

/-- Address standing for the dangling pointer used for capacity-0 buffers
(Rust String/Vec do not allocate for capacity 0). -/
def danglingPtr : Nat := 1

/-- Modelled allocator: allocating size bytes yields a pointer and an alloc
event; size 0 performs no allocation (dangling pointer). Allocation of
MAX_CAPACITY or more bytes is the fatal case: the spec treats allocation
failure as fatal and notes that a capacity at the reserved-bit threshold
exceeds what the platform can allocate. -/
def allocBuf (size : Nat) : Option (Nat × List Event) :=
  if size = 0 then some (danglingPtr, [])
  else if size < MAX_CAPACITY then some (freshPtr, [Event.alloc freshPtr size])
  else none

/-- Inline shape of IString: 23 data bytes followed by the length byte whose
bit 7 is the discriminant (little-endian field order from the source). -/
structure Inline where
  data : List Nat
  len  : Nat
deriving DecidableEq

/-- Heap shape of IString: pointer, capacity and length words; buf is the
shallow embedding of the bytes of the owned allocation behind ptr
(length cap, tracked alongside the raw parts). -/
structure Heap where
  ptr : Nat
  cap : Nat
  len : Nat
  buf : List Nat
deriving DecidableEq

/-- The IStringUnion: exactly one of the two overlapping shapes is stored at
any time; reads through the other shape go via the reinterpretation views. -/
inductive IString
  | inline (i : Inline)
  | heap (h : Heap)
deriving DecidableEq

/-- Numeric fields obtained when the 24 union bytes of an inline-stored value
are read through the Heap shape (little-endian, 64-bit): bytes 0..8 are ptr,
bytes 8..16 are cap, bytes 16..23 plus the length byte are len. -/
structure HeapView where
  ptr : Nat
  cap : Nat
  len : Nat
deriving DecidableEq

/-- Reinterpret an inline-stored byte pattern through the Heap shape. -/
def Inline.asHeapView (i : Inline) : HeapView :=
  ⟨fromLE (i.data.take 8), fromLE ((i.data.drop 8).take 8), fromLE (i.data.drop 16 ++ [i.len])⟩

/-- Reinterpret a heap-stored byte pattern through the Inline shape: data is
the first 23 union bytes, the length byte is byte 7 of heap.len. -/
def Heap.asInlineView (h : Heap) : Inline :=
  ⟨(le64 h.ptr ++ le64 h.cap ++ le64 h.len).take 23, h.len / 2 ^ 56 % 256⟩

/-- Source is_inline: reads bit 7 of the union byte at offset 23, i.e. bit 7 of
inline.len, which aliases bit 63 of heap.len. -/
def IString.is_inline : IString → Bool
  | .inline i => hasBit7 i.len
  | .heap h => h.len / 2 ^ 63 % 2 == 1

/-- Source len: the low 7 bits of inline.len when the discriminant bit is set,
the heap length word otherwise; the cross cases read through the views. -/
def IString.len (s : IString) : Nat :=
  if s.is_inline then
    match s with
    | .inline i => low7 i.len
    | .heap h => low7 (h.len / 2 ^ 56 % 256)
  else
    match s with
    | .inline i => i.asHeapView.len
    | .heap h => h.len

/-- Source capacity: INLINE_CAPACITY when inline, the heap capacity word
otherwise. -/
def IString.capacity (s : IString) : Nat :=
  if s.is_inline then INLINE_CAPACITY
  else
    match s with
    | .inline i => i.asHeapView.cap
    | .heap h => h.cap

/-- Source as_bytes: the first len bytes of the active buffer. Indexing past
the inline array is a panic and reading through a reinterpreted pointer is
undefined behaviour; both are none. -/
def IString.as_bytes (s : IString) : Option (List Nat) :=
  let len := s.len
  if s.is_inline then
    match s with
    | .inline i => if len ≤ i.data.length then some (i.data.take len) else none
    | .heap h => if len ≤ INLINE_CAPACITY then some (h.asInlineView.data.take len) else none
  else
    match s with
    | .inline _ => none
    | .heap h => if len ≤ h.buf.length then some (h.buf.take len) else none

/-- Source IString::new: empty inline value, zeroed data, length byte IS_INLINE. -/
def IString.new : IString :=
  .inline ⟨List.replicate INLINE_CAPACITY 0, IS_INLINE⟩

/-- Source IString::with_capacity: asserts capacity < MAX_CAPACITY; above the
inline capacity it takes the raw parts of String::with_capacity(capacity)
(one allocation of exactly capacity bytes, length 0), otherwise it is the
empty inline value. -/
def IString.with_capacity (capacity : Nat) : Option (IString × List Event) :=
  if capacity < MAX_CAPACITY then
    if capacity > INLINE_CAPACITY then
      match allocBuf capacity with
      | some (p, ev) => some (.heap ⟨p, capacity, 0, List.replicate capacity 0⟩, ev)
      | none => none
    else
      some (.inline ⟨List.replicate INLINE_CAPACITY 0, IS_INLINE⟩, [])
  else none

/-- Source set_len: asserts new_len <= capacity, then writes either the inline
length byte (as u8, with the discriminant bit kept set) or the heap length
word, through the byte view selected by is_inline. -/
def IString.set_len (s : IString) (new_len : Nat) : Option IString :=
  if new_len ≤ s.capacity then
    if s.is_inline then
      match s with
      | .inline i => some (.inline ⟨i.data, withBit7 new_len⟩)
      | .heap h => some (.heap { h with len := h.len % 2 ^ 56 + withBit7 new_len * 2 ^ 56 })
    else
      match s with
      | .inline i => some (.inline ⟨i.data.take 16 ++ (le64 new_len).take 7, new_len / 2 ^ 56 % 256⟩)
      | .heap h => some (.heap { h with len := new_len })
  else none

/-- Model of the slice write as_bytes_mut()[off .. off + t.length] <- t into
the active buffer; out-of-range indexing or a write through a reinterpreted
pointer is none. -/
def IString.writeBytes (s : IString) (off : Nat) (t : List Nat) : Option IString :=
  if off + t.length ≤ s.len then
    if s.is_inline then
      match s with
      | .inline i =>
          if s.len ≤ i.data.length then some (.inline ⟨writeAt i.data off t, i.len⟩) else none
      | .heap _ => none
    else
      match s with
      | .inline _ => none
      | .heap h =>
          if s.len ≤ h.buf.length then some (.heap { h with buf := writeAt h.buf off t }) else none
  else none

/-- Source move_to_heap: a no-op unless inline; asserts cap >= len, then takes
the raw parts of String::with_capacity(cap), copies the len inline bytes into
the fresh buffer and adopts the heap shape. -/
def IString.move_to_heap (s : IString) (cap : Nat) : Option (IString × List Event) :=
  if s.is_inline then
    if cap ≥ s.len then
      match allocBuf cap with
      | none => none
      | some (p, ev) =>
        match s with
        | .inline i =>
            some (.heap ⟨p, cap, s.len, i.data.take s.len ++ List.replicate (cap - s.len) 0⟩, ev)
        | .heap _ => none
    else none
  else some (s, [])

/-- Model of Rust String::reserve(additional) on the raw parts h: a no-op when
the remaining capacity suffices, otherwise amortized growth to
max(8, max(2 * cap, len + additional)) (RawVec grow_amortized for byte
elements), reallocating: one alloc of the new size, the first len bytes
copied over, and a dealloc of the old buffer when it was a real allocation. -/
def stringReserve (h : Heap) (additional : Nat) : Option (Heap × List Event) :=
  if h.cap - h.len ≥ additional then some (h, [])
  else
    let newCap := max 8 (max (2 * h.cap) (h.len + additional))
    if newCap < MAX_CAPACITY then
      some (⟨freshPtr, newCap, h.len, h.buf.take h.len ++ List.replicate (newCap - h.len) 0⟩,
            [Event.alloc freshPtr newCap] ++ if h.cap = 0 then [] else [Event.dealloc h.ptr h.cap])
    else none

/-- Source resize: asserts the value is not inline and new_cap >= len, then
rebuilds the String from the raw parts, calls String::reserve(new_cap - len)
and adopts the resulting raw parts. -/
def IString.resize (s : IString) (new_cap : Nat) : Option (IString × List Event) :=
  if s.is_inline then none
  else if new_cap ≥ s.len then
    match s with
    | .inline _ => none
    | .heap h =>
      match stringReserve h (new_cap - s.len) with
      | some (h2, ev) => some (.heap h2, ev)
      | none => none
  else none

/-- Source shrink: when len <= INLINE_CAPACITY it unconditionally copies
union.heap (a reinterpretation of the stored bytes when the value is inline),
writes the inline length byte, copies len bytes from heap.ptr into the inline
data and drops String::from_raw_parts(heap.ptr, len, heap.cap); for an
inline-stored value the copy reads through the reinterpreted garbage pointer,
which is undefined behaviour (none). Above INLINE_CAPACITY it resizes to len. -/
def IString.shrink (s : IString) : Option (IString × List Event) :=
  let len := s.len
  if len ≤ INLINE_CAPACITY then
    match s with
    | .heap h =>
        if len ≤ h.buf.length then
          some (.inline ⟨writeAt h.asInlineView.data 0 (h.buf.take len), withBit7 len⟩,
                if h.cap = 0 then [] else [Event.dealloc h.ptr h.cap])
        else none
    | .inline _ => none
  else s.resize len

/-- Source push_str: computes new_len = len + s.len, promotes an inline value
to the heap with capacity next_power_of_two(new_len) when it no longer fits
inline, resizes a heap value to next_power_of_two(new_len) when it exceeds the
capacity, then set_len(new_len) and copies the appended bytes into place. -/
def IString.push_str (s : IString) (t : List Nat) : Option (IString × List Event) :=
  let old_len := s.len
  let new_len := old_len + t.length
  let step1 : Option (IString × List Event) :=
    if s.is_inline then
      if new_len > INLINE_CAPACITY then s.move_to_heap (next_power_of_two new_len)
      else some (s, [])
    else
      if new_len > s.capacity then s.resize (next_power_of_two new_len)
      else some (s, [])
  match step1 with
  | none => none
  | some (s1, ev) =>
    match s1.set_len new_len with
    | none => none
    | some s2 =>
      match s2.writeBytes old_len t with
      | none => none
      | some s3 => some (s3, ev)

/-- Rust char::encode_utf8 for a scalar value c: its UTF-8 byte sequence. -/
def encodeChar (c : Nat) : List Nat :=
  if c < 128 then [c]
  else if c < 2048 then [192 + c / 64, 128 + c % 64]
  else if c < 65536 then [224 + c / 4096, 128 + c / 64 % 64, 128 + c % 64]
  else [240 + c / 262144, 128 + c / 4096 % 64, 128 + c / 64 % 64, 128 + c % 64]

/-- Source push: encodes the char into a stack buffer and appends via push_str. -/
def IString.push (s : IString) (c : Nat) : Option (IString × List Event) :=
  s.push_str (encodeChar c)

/-- Source reserve: new_cap = capacity + additional; an inline value moves to
the heap only when new_cap exceeds the inline capacity (no rounding), a heap
value resizes to exactly new_cap (String::reserve may still amortize). -/
def IString.reserve (s : IString) (additional : Nat) : Option (IString × List Event) :=
  let new_cap := s.capacity + additional
  if s.is_inline then
    if new_cap > INLINE_CAPACITY then s.move_to_heap new_cap
    else some (s, [])
  else s.resize new_cap

/-- Source reserve_exact: new_cap = capacity + additional; an inline value
always moves to the heap with capacity new_cap, a heap value resizes. -/
def IString.reserve_exact (s : IString) (additional : Nat) : Option (IString × List Event) :=
  let new_cap := s.capacity + additional
  if s.is_inline then s.move_to_heap new_cap
  else s.resize new_cap

/-- Source truncate: when new_len < len it simply set_len(new_len) (the assert
inside set_len always passes because new_len < len <= capacity); otherwise it
does nothing. No char-boundary check is performed. -/
def IString.truncate (s : IString) (new_len : Nat) : Option IString :=
  if new_len < s.len then s.set_len new_len else some s

/-- Source to_heap: asserts the value is not inline, extracts the Heap part and
suppresses the destructor via mem::forget, so no allocator event occurs. -/
def IString.to_heap (s : IString) : Option (Heap × List Event) :=
  if s.is_inline then none
  else
    match s with
    | .heap h => some (h, [])
    | .inline _ => none

/-- Source to_inline: asserts the value is inline, extracts the Inline part
with the discriminant bit cleared, suppressing the destructor. -/
def IString.to_inline (s : IString) : Option (Inline × List Event) :=
  if s.is_inline then
    match s with
    | .inline i => some ({ i with len := low7 i.len }, [])
    | .heap _ => none
  else none

/-- Source from_heap: builds the union from the Heap part and asserts that the
byte aliasing the discriminant (bit 7 of byte 7 of heap.len) is clear. -/
def IString.from_heap (h : Heap) : Option IString :=
  if hasBit7 (h.len / 2 ^ 56 % 256) then none else some (.heap h)

/-- Source from_inline: asserts len <= INLINE_CAPACITY, then sets the
discriminant bit on the length byte. -/
def IString.from_inline (i : Inline) : Option IString :=
  if i.len ≤ INLINE_CAPACITY then some (.inline { i with len := withBit7 i.len })
  else none

/-- Destructor of IString (Drop): releases ptr..cap through
String::from_raw_parts when the value is heap-resident; a no-op when inline
(or when the heap capacity is 0, where String does not deallocate). -/
def IString.dropEvents : IString → List Event
  | .inline _ => []
  | .heap h => if h.cap = 0 then [] else [Event.dealloc h.ptr h.cap]

/-- Source Clone for IString: an inline value is a plain bit copy; a heap value
builds with_capacity(len) and pushes its own bytes. -/
def IString.clone (s : IString) : Option (IString × List Event) :=
  if s.is_inline then
    match s with
    | .inline i => some (.inline i, [])
    | .heap _ => none
  else
    match s.as_bytes with
    | none => none
    | some bs =>
      match IString.with_capacity s.len with
      | none => none
      | some (c, ev1) =>
        match c.push_str bs with
        | none => none
        | some (w, ev2) => some (w, ev1 ++ ev2)

/-- Source From for &str: with_capacity(s.len()) followed by push_str(s). -/
def IString.fromStr (t : List Nat) : Option (IString × List Event) :=
  match IString.with_capacity t.length with
  | none => none
  | some (v, ev1) =>
    match v.push_str t with
    | none => none
    | some (w, ev2) => some (w, ev1 ++ ev2)

/-- Raw parts view of a Rust String (the donor of From for String): pointer,
capacity, length and the bytes of its allocation. -/
structure RustString where
  ptr : Nat
  cap : Nat
  len : Nat
  buf : List Nat
deriving DecidableEq

/-- Well-formedness every real Rust String satisfies: len <= cap, the buffer
matches the capacity, and the capacity is below the reserved-bit threshold
(larger allocations cannot exist on the target platform). -/
def RustString.wfS (r : RustString) : Prop :=
  r.len ≤ r.cap ∧ r.cap < MAX_CAPACITY ∧ r.buf.length = r.cap

/-- Source From for String: adopts the raw parts directly (zero copy, no
allocator interaction) when the capacity is nonzero, else IString::new. -/
def IString.from_string (r : RustString) : IString :=
  if r.cap ≠ 0 then .heap ⟨r.ptr, r.cap, r.len, r.buf⟩ else IString.new

/-- UTF-8 validity of a byte sequence (RFC 3629: rejects overlong forms,
surrogates and values above U+10FFFF), the validity notion behind str. -/
def utf8Valid : List Nat → Bool
  | [] => true
  | b :: rest =>
    if b < 128 then utf8Valid rest
    else if b < 194 then false
    else if b < 224 then
      match rest with
      | c :: r => decide (128 ≤ c ∧ c < 192) && utf8Valid r
      | [] => false
    else if b < 240 then
      match rest with
      | c :: d :: r =>
        let lo := if b = 224 then 160 else 128
        let hi := if b = 237 then 160 else 192
        decide (lo ≤ c ∧ c < hi) && decide (128 ≤ d ∧ d < 192) && utf8Valid r
      | _ => false
    else if b < 245 then
      match rest with
      | c :: d :: e :: r =>
        let lo := if b = 240 then 144 else 128
        let hi := if b = 244 then 144 else 192
        decide (lo ≤ c ∧ c < hi) && decide (128 ≤ d ∧ d < 192) &&
          decide (128 ≤ e ∧ e < 192) && utf8Valid r
      | _ => false
    else false

namespace Small

/-- Inline capacity of SmallString on a 64-bit target (source constant). -/
def INLINE_CAPACITY : Nat := 15

/-- Inline shape of SmallString: 15 data bytes plus the length byte. -/
structure Inline where
  data : List Nat
  len  : Nat
deriving DecidableEq

/-- Heap shape of SmallString: pointer and length only (exact-fit Box of str);
buf models the bytes of the owned allocation (length len). -/
structure Heap where
  ptr : Nat
  len : Nat
  buf : List Nat
deriving DecidableEq

/-- The SmallStringUnion: byte 15 is shared between inline.len and byte 7 of
heap.len (little-endian). -/
inductive SmallString
  | inline (i : Inline)
  | heap (h : Heap)
deriving DecidableEq

/-- Source is_inline for SmallString: bit 7 of the union byte at offset 15,
aliasing bit 63 of heap.len. -/
def SmallString.is_inline : SmallString → Bool
  | .inline i => hasBit7 i.len
  | .heap h => h.len / 2 ^ 63 % 2 == 1

/-- Source len for SmallString. The cross case reads heap.len through the
inline bytes (bytes 8..15 plus the length byte). -/
def SmallString.len (s : SmallString) : Nat :=
  if s.is_inline then
    match s with
    | .inline i => low7 i.len
    | .heap h => low7 (h.len / 2 ^ 56 % 256)
  else
    match s with
    | .inline i => fromLE (i.data.drop 8 ++ [i.len])
    | .heap h => h.len

/-- Source as_bytes for SmallString. -/
def SmallString.as_bytes (s : SmallString) : Option (List Nat) :=
  let len := s.len
  if s.is_inline then
    match s with
    | .inline i => if len ≤ i.data.length then some (i.data.take len) else none
    | .heap h => if len ≤ INLINE_CAPACITY then some ((le64 h.ptr ++ le64 h.len).take len) else none
  else
    match s with
    | .inline _ => none
    | .heap h => if len ≤ h.buf.length then some (h.buf.take len) else none

/-- Source from_heap for SmallString: asserts the union byte aliasing the
discriminant (bit 7 of byte 7 of heap.len) is clear. -/
def SmallString.from_heap (h : Heap) : Option SmallString :=
  if hasBit7 (h.len / 2 ^ 56 % 256) then none else some (.heap h)

/-- Source from_inline for SmallString: asserts len <= INLINE_CAPACITY, then
sets the discriminant bit. -/
def SmallString.from_inline (i : Inline) : Option SmallString :=
  if i.len ≤ INLINE_CAPACITY then some (.inline { i with len := withBit7 i.len })
  else none

/-- Source SmallString::new: above the inline capacity it boxes the str (one
exact-fit allocation of len bytes, contents copied) and goes through
from_heap; otherwise it zero-fills the inline data, copies the bytes in and
goes through from_inline. -/
def SmallString.new (t : List Nat) : Option (SmallString × List Event) :=
  let len := t.length
  if len > INLINE_CAPACITY then
    match allocBuf len with
    | none => none
    | some (p, ev) =>
      match SmallString.from_heap ⟨p, len, t⟩ with
      | none => none
      | some s => some (s, ev)
  else
    match SmallString.from_inline ⟨writeAt (List.replicate INLINE_CAPACITY 0) 0 t, len⟩ with
    | none => none
    | some s => some (s, [])

end Small

/-- Representation invariant of the inline shape: full-width data array, the
discriminant bit set on the length byte, and a logical length of at most
INLINE_CAPACITY (so the length byte lies in [IS_INLINE, IS_INLINE + 23]). -/
def Inline.wf (i : Inline) : Prop :=
  i.data.length = INLINE_CAPACITY ∧ IS_INLINE ≤ i.len ∧ i.len ≤ IS_INLINE + INLINE_CAPACITY

/-- Representation invariant of the heap shape: length at most capacity,
capacity strictly below MAX_CAPACITY (keeping the aliased discriminant bit
clear), and an allocation of exactly capacity bytes. -/
def Heap.wf (h : Heap) : Prop :=
  h.len ≤ h.cap ∧ h.cap < MAX_CAPACITY ∧ h.buf.length = h.cap

/-- Representation invariant of IString: the stored shape is well formed. -/
def IString.wf : IString → Prop
  | .inline i => i.wf
  | .heap h => h.wf

instance (i : Inline) : Decidable i.wf :=
  inferInstanceAs (Decidable (i.data.length = INLINE_CAPACITY ∧
    IS_INLINE ≤ i.len ∧ i.len ≤ IS_INLINE + INLINE_CAPACITY))

instance (h : Heap) : Decidable h.wf :=
  inferInstanceAs (Decidable (h.len ≤ h.cap ∧ h.cap < MAX_CAPACITY ∧ h.buf.length = h.cap))

instance : (s : IString) → Decidable s.wf
  | .inline i => inferInstanceAs (Decidable i.wf)
  | .heap h => inferInstanceAs (Decidable h.wf)

theorem hasBit7_true {b : Nat} (h1 : IS_INLINE ≤ b) (h2 : b < 256) : hasBit7 b = true := by
  simp only [hasBit7, beq_iff_eq, IS_INLINE] at *
  omega

theorem hasBit7_false {b : Nat} (h : b < IS_INLINE) : hasBit7 b = false := by
  simp only [hasBit7, beq_eq_false_iff_ne, ne_eq, IS_INLINE] at *
  omega

theorem is_inline_inline (i : Inline) : (IString.inline i).is_inline = hasBit7 i.len := rfl

theorem is_inline_heap {h : Heap} (hlen : h.len < 2 ^ 63) :
    (IString.heap h).is_inline = false := by
  simp only [IString.is_inline, beq_eq_false_iff_ne, ne_eq]
  omega

theorem wf_is_inline_inline {i : Inline} (hw : i.wf) :
    (IString.inline i).is_inline = true := by
  obtain ⟨-, h1, h2⟩ := hw
  exact hasBit7_true h1 (by simp only [IS_INLINE, INLINE_CAPACITY] at h2 ⊢; omega)

theorem wf_is_inline_heap {h : Heap} (hw : h.wf) :
    (IString.heap h).is_inline = false := by
  obtain ⟨h1, h2, -⟩ := hw
  exact is_inline_heap (by simp only [MAX_CAPACITY] at h2; omega)

theorem len_inline {i : Inline} (hw : i.wf) :
    (IString.inline i).len = low7 i.len := by
  simp [IString.len, wf_is_inline_inline hw]

theorem len_heap {h : Heap} (hw : h.wf) : (IString.heap h).len = h.len := by
  simp [IString.len, wf_is_inline_heap hw]

theorem capacity_inline {i : Inline} (hw : i.wf) :
    (IString.inline i).capacity = INLINE_CAPACITY := by
  simp [IString.capacity, wf_is_inline_inline hw]

theorem capacity_heap {h : Heap} (hw : h.wf) : (IString.heap h).capacity = h.cap := by
  simp [IString.capacity, wf_is_inline_heap hw]

theorem low7_le {i : Inline} (hw : i.wf) : low7 i.len ≤ INLINE_CAPACITY := by
  obtain ⟨-, h1, h2⟩ := hw
  simp only [low7, IS_INLINE, INLINE_CAPACITY] at *
  omega

theorem as_bytes_inline {i : Inline} (hw : i.wf) :
    (IString.inline i).as_bytes = some (i.data.take (low7 i.len)) := by
  have hl := low7_le hw
  have hd := hw.1
  simp only [IString.as_bytes, wf_is_inline_inline hw, len_inline hw, if_true]
  rw [if_pos (by simp only [INLINE_CAPACITY] at *; omega)]

theorem as_bytes_heap {h : Heap} (hw : h.wf) :
    (IString.heap h).as_bytes = some (h.buf.take h.len) := by
  obtain ⟨h1, h2, h3⟩ := hw
  simp only [IString.as_bytes, wf_is_inline_heap ⟨h1, h2, h3⟩, len_heap ⟨h1, h2, h3⟩]
  simp only [Bool.false_eq_true, if_false]
  rw [if_pos (by omega)]

theorem set_len_inline {i : Inline} (hw : i.wf) {n : Nat} (hn : n ≤ INLINE_CAPACITY) :
    (IString.inline i).set_len n = some (.inline ⟨i.data, withBit7 n⟩) := by
  simp only [IString.set_len, capacity_inline hw, wf_is_inline_inline hw, if_true]
  rw [if_pos hn]

theorem set_len_heap {h : Heap} (hw : h.wf) {n : Nat} (hn : n ≤ h.cap) :
    (IString.heap h).set_len n = some (.heap { h with len := n }) := by
  simp only [IString.set_len, capacity_heap hw, wf_is_inline_heap hw, Bool.false_eq_true,
    if_false]
  rw [if_pos hn]

theorem writeBytes_inline {i : Inline} (hw : i.wf) {off : Nat} {t : List Nat}
    (hofft : off + t.length ≤ low7 i.len) :
    (IString.inline i).writeBytes off t = some (.inline ⟨writeAt i.data off t, i.len⟩) := by
  have hl := low7_le hw
  have hd := hw.1
  simp only [IString.writeBytes, len_inline hw, wf_is_inline_inline hw, if_true]
  rw [if_pos hofft, if_pos (by simp only [INLINE_CAPACITY] at *; omega)]

theorem writeBytes_heap {h : Heap} (hw : h.wf) {off : Nat} {t : List Nat}
    (hofft : off + t.length ≤ h.len) :
    (IString.heap h).writeBytes off t = some (.heap { h with buf := writeAt h.buf off t }) := by
  obtain ⟨h1, h2, h3⟩ := hw
  simp only [IString.writeBytes, len_heap ⟨h1, h2, h3⟩, wf_is_inline_heap ⟨h1, h2, h3⟩,
    Bool.false_eq_true, if_false]
  rw [if_pos hofft, if_pos (by omega)]

theorem move_to_heap_inline {i : Inline} (hw : i.wf) {cap : Nat}
    (hcap : low7 i.len ≤ cap) (hpos : 0 < cap) (hmax : cap < MAX_CAPACITY) :
    (IString.inline i).move_to_heap cap =
      some (.heap ⟨freshPtr, cap, low7 i.len,
        i.data.take (low7 i.len) ++ List.replicate (cap - low7 i.len) 0⟩,
        [Event.alloc freshPtr cap]) := by
  simp only [IString.move_to_heap, wf_is_inline_inline hw, len_inline hw, if_true]
  rw [if_pos hcap]
  simp only [allocBuf]
  rw [if_neg (by omega), if_pos hmax]

theorem move_to_heap_inline_zero {i : Inline} (hw : i.wf) (hlen : low7 i.len = 0) :
    (IString.inline i).move_to_heap 0 =
      some (.heap ⟨danglingPtr, 0, 0, []⟩, []) := by
  simp only [IString.move_to_heap, wf_is_inline_inline hw, len_inline hw, if_true]
  rw [if_pos (by omega)]
  simp only [allocBuf, if_pos rfl, hlen]
  simp

theorem move_to_heap_heap {h : Heap} (hw : h.wf) {cap : Nat} :
    (IString.heap h).move_to_heap cap = some (.heap h, []) := by
  simp only [IString.move_to_heap, wf_is_inline_heap hw, Bool.false_eq_true, if_false]

theorem stringReserve_noGrow {h : Heap} {a : Nat} (hle : h.cap - h.len ≥ a) :
    stringReserve h a = some (h, []) := by
  simp only [stringReserve]
  rw [if_pos hle]

theorem stringReserve_grow {h : Heap} {a : Nat} (hgt : h.cap - h.len < a)
    (hmax : max 8 (max (2 * h.cap) (h.len + a)) < MAX_CAPACITY) :
    stringReserve h a =
      some (⟨freshPtr, max 8 (max (2 * h.cap) (h.len + a)), h.len,
        h.buf.take h.len ++ List.replicate (max 8 (max (2 * h.cap) (h.len + a)) - h.len) 0⟩,
        [Event.alloc freshPtr (max 8 (max (2 * h.cap) (h.len + a)))] ++
          if h.cap = 0 then [] else [Event.dealloc h.ptr h.cap]) := by
  simp only [stringReserve]
  rw [if_neg (by omega), if_pos hmax]

theorem resize_noGrow {h : Heap} (hw : h.wf) {new_cap : Nat}
    (h1 : h.len ≤ new_cap) (h2 : new_cap ≤ h.cap) :
    (IString.heap h).resize new_cap = some (.heap h, []) := by
  simp only [IString.resize, wf_is_inline_heap hw, Bool.false_eq_true, if_false,
    len_heap hw]
  rw [if_pos h1, stringReserve_noGrow (by omega)]

theorem resize_grow {h : Heap} (hw : h.wf) {new_cap : Nat} (h2 : h.cap < new_cap)
    (hmax : max 8 (max (2 * h.cap) new_cap) < MAX_CAPACITY) :
    (IString.heap h).resize new_cap =
      some (.heap ⟨freshPtr, max 8 (max (2 * h.cap) new_cap), h.len,
        h.buf.take h.len ++ List.replicate (max 8 (max (2 * h.cap) new_cap) - h.len) 0⟩,
        [Event.alloc freshPtr (max 8 (max (2 * h.cap) new_cap))] ++
          if h.cap = 0 then [] else [Event.dealloc h.ptr h.cap]) := by
  have h1 := hw.1
  have hlen : h.len ≤ new_cap := by omega
  have heq : h.len + (new_cap - h.len) = new_cap := by omega
  have hsr := stringReserve_grow (h := h) (a := new_cap - h.len) (by omega)
    (by rw [heq]; exact hmax)
  rw [heq] at hsr
  simp only [IString.resize, wf_is_inline_heap hw, Bool.false_eq_true, if_false,
    len_heap hw]
  rw [if_pos hlen, hsr]

theorem with_capacity_small {c : Nat} (hc : c ≤ INLINE_CAPACITY) :
    IString.with_capacity c =
      some (.inline ⟨List.replicate INLINE_CAPACITY 0, IS_INLINE⟩, []) := by
  simp only [IString.with_capacity]
  rw [if_pos (by simp only [INLINE_CAPACITY, MAX_CAPACITY] at *; omega), if_neg (by omega)]

theorem with_capacity_large {c : Nat} (hc : INLINE_CAPACITY < c) (hmax : c < MAX_CAPACITY) :
    IString.with_capacity c =
      some (.heap ⟨freshPtr, c, 0, List.replicate c 0⟩, [Event.alloc freshPtr c]) := by
  simp only [IString.with_capacity, allocBuf]
  rw [if_pos hmax, if_pos hc, if_neg (by simp only [INLINE_CAPACITY] at hc; omega),
    if_pos hmax]

theorem writeAt_length {buf t : List Nat} {off : Nat} (h : off + t.length ≤ buf.length) :
    (writeAt buf off t).length = buf.length := by
  simp only [writeAt, List.length_append, List.length_take, List.length_drop]
  omega

theorem writeAt_take {buf t : List Nat} {off : Nat} (h : off ≤ buf.length) :
    (writeAt buf off t).take (off + t.length) = buf.take off ++ t := by
  have h1 : (buf.take off ++ t).length = off + t.length := by
    simp only [List.length_append, List.length_take]
    omega
  rw [writeAt, List.take_append_eq_append_take, h1, List.take_of_length_le (by omega),
    Nat.sub_self, List.take_zero, List.append_nil]

theorem take_append_left {l r : List Nat} {n : Nat} (h : l.length = n) :
    (l ++ r).take n = l := by
  subst h
  exact List.take_left l r

theorem low7_withBit7 {n : Nat} (h : n < 128) : low7 (withBit7 n) = n := by
  simp only [low7, withBit7, IS_INLINE]
  omega

theorem wf_mk_inline {d : List Nat} {n : Nat} (hd : d.length = INLINE_CAPACITY)
    (hn : n ≤ INLINE_CAPACITY) : Inline.wf ⟨d, withBit7 n⟩ := by
  refine ⟨hd, ?_, ?_⟩ <;> simp only [withBit7, IS_INLINE, INLINE_CAPACITY] at * <;> omega

theorem heap_wf_mk {p c l : Nat} {b : List Nat} (h1 : l ≤ c) (h2 : c < MAX_CAPACITY)
    (h3 : b.length = c) : Heap.wf ⟨p, c, l, b⟩ := ⟨h1, h2, h3⟩

theorem le_next_power_of_two (n : Nat) : n ≤ next_power_of_two n := by
  unfold next_power_of_two
  split
  · omega
  · rename_i hn
    have h1 : n - 1 ≠ 0 := by omega
    have := (Nat.log2_lt h1).mp (Nat.lt_succ_self (Nat.log2 (n - 1)))
    omega

theorem next_power_of_two_le {n k : Nat} (h : n ≤ 2 ^ k) :
    next_power_of_two n ≤ 2 ^ k := by
  unfold next_power_of_two
  split
  · exact Nat.one_le_two_pow
  · rename_i hn
    have h1 : n - 1 ≠ 0 := by omega
    have h2 : Nat.log2 (n - 1) < k := (Nat.log2_lt h1).mpr (by omega)
    exact Nat.pow_le_pow_right (by omega) (by omega)

theorem pushStr_inline_fit {i : Inline} {t : List Nat} (hw : i.wf)
    (hfit : low7 i.len + t.length ≤ INLINE_CAPACITY) :
    (IString.inline i).push_str t =
      some (.inline ⟨writeAt i.data (low7 i.len) t, withBit7 (low7 i.len + t.length)⟩, []) := by
  have hw2 : Inline.wf ⟨i.data, withBit7 (low7 i.len + t.length)⟩ :=
    wf_mk_inline hw.1 hfit
  have hlw : low7 (withBit7 (low7 i.len + t.length)) = low7 i.len + t.length :=
    low7_withBit7 (by simp only [INLINE_CAPACITY] at hfit; omega)
  simp only [IString.push_str, wf_is_inline_inline hw, len_inline hw, if_true]
  rw [if_neg (by omega)]
  simp only []
  rw [set_len_inline hw hfit]
  simp only []
  rw [writeBytes_inline hw2 (by rw [hlw])]

theorem pushStr_inline_grow {i : Inline} {t : List Nat} (hw : i.wf)
    (hgrow : INLINE_CAPACITY < low7 i.len + t.length)
    (hbound : low7 i.len + t.length ≤ 2 ^ 62) :
    (IString.inline i).push_str t =
      some (.heap ⟨freshPtr, next_power_of_two (low7 i.len + t.length), low7 i.len + t.length,
        writeAt (i.data.take (low7 i.len) ++
          List.replicate (next_power_of_two (low7 i.len + t.length) - low7 i.len) 0)
          (low7 i.len) t⟩,
        [Event.alloc freshPtr (next_power_of_two (low7 i.len + t.length))]) := by
  have hl := low7_le hw
  have hnp := le_next_power_of_two (low7 i.len + t.length)
  have hnp2 := next_power_of_two_le (k := 62) hbound
  have hmax : next_power_of_two (low7 i.len + t.length) < MAX_CAPACITY := by
    simp only [MAX_CAPACITY]
    have : (2 : Nat) ^ 62 < 2 ^ 63 - 1 := by norm_num
    omega
  have hbuf : (i.data.take (low7 i.len) ++
      List.replicate (next_power_of_two (low7 i.len + t.length) - low7 i.len) 0).length =
      next_power_of_two (low7 i.len + t.length) := by
    have hd := hw.1
    simp only [List.length_append, List.length_take, List.length_replicate]
    simp only [INLINE_CAPACITY] at *
    omega
  have hw1 : Heap.wf ⟨freshPtr, next_power_of_two (low7 i.len + t.length), low7 i.len,
      i.data.take (low7 i.len) ++
        List.replicate (next_power_of_two (low7 i.len + t.length) - low7 i.len) 0⟩ :=
    heap_wf_mk (by omega) hmax hbuf
  have hw2 : Heap.wf ⟨freshPtr, next_power_of_two (low7 i.len + t.length),
      low7 i.len + t.length,
      i.data.take (low7 i.len) ++
        List.replicate (next_power_of_two (low7 i.len + t.length) - low7 i.len) 0⟩ :=
    heap_wf_mk hnp hmax hbuf
  simp only [IString.push_str, wf_is_inline_inline hw, len_inline hw, if_true]
  rw [if_pos hgrow]
  rw [move_to_heap_inline hw (by omega) (by omega) hmax]
  simp only []
  rw [set_len_heap hw1 hnp]
  simp only []
  rw [writeBytes_heap hw2 (le_refl _)]

theorem pushStr_heap_fit {h : Heap} {t : List Nat} (hw : h.wf)
    (hfit : h.len + t.length ≤ h.cap) :
    (IString.heap h).push_str t =
      some (.heap ⟨h.ptr, h.cap, h.len + t.length, writeAt h.buf h.len t⟩, []) := by
  have hw1 : Heap.wf ⟨h.ptr, h.cap, h.len + t.length, h.buf⟩ :=
    heap_wf_mk hfit hw.2.1 hw.2.2
  simp only [IString.push_str, wf_is_inline_heap hw, len_heap hw, capacity_heap hw,
    Bool.false_eq_true, if_false]
  rw [if_neg (by omega)]
  simp only []
  rw [set_len_heap hw hfit]
  simp only []
  rw [writeBytes_heap hw1 (le_refl _)]

theorem pushStr_heap_grow {h : Heap} {t : List Nat} (hw : h.wf)
    (hgrow : h.cap < h.len + t.length) (hbound : h.len + t.length ≤ 2 ^ 62) :
    (IString.heap h).push_str t =
      some (.heap ⟨freshPtr, max 8 (max (2 * h.cap) (next_power_of_two (h.len + t.length))),
        h.len + t.length,
        writeAt (h.buf.take h.len ++
          List.replicate (max 8 (max (2 * h.cap) (next_power_of_two (h.len + t.length))) - h.len) 0)
          h.len t⟩,
        [Event.alloc freshPtr (max 8 (max (2 * h.cap) (next_power_of_two (h.len + t.length))))] ++
          if h.cap = 0 then [] else [Event.dealloc h.ptr h.cap]) := by
  have hlc := hw.1
  have hnp := le_next_power_of_two (h.len + t.length)
  have hnp2 := next_power_of_two_le (k := 62) hbound
  have hmax : max 8 (max (2 * h.cap) (next_power_of_two (h.len + t.length))) < MAX_CAPACITY := by
    simp only [MAX_CAPACITY]
    have : (2 : Nat) ^ 62 < 2 ^ 63 - 1 := by norm_num
    omega
  have hbuf : (h.buf.take h.len ++
      List.replicate (max 8 (max (2 * h.cap) (next_power_of_two (h.len + t.length))) - h.len)
        0).length =
      max 8 (max (2 * h.cap) (next_power_of_two (h.len + t.length))) := by
    have hb := hw.2.2
    simp only [List.length_append, List.length_take, List.length_replicate]
    omega
  have hw1 : Heap.wf ⟨freshPtr, max 8 (max (2 * h.cap) (next_power_of_two (h.len + t.length))),
      h.len,
      h.buf.take h.len ++
        List.replicate (max 8 (max (2 * h.cap) (next_power_of_two (h.len + t.length))) - h.len)
          0⟩ :=
    heap_wf_mk (by omega) hmax hbuf
  have hw2 : Heap.wf ⟨freshPtr, max 8 (max (2 * h.cap) (next_power_of_two (h.len + t.length))),
      h.len + t.length,
      h.buf.take h.len ++
        List.replicate (max 8 (max (2 * h.cap) (next_power_of_two (h.len + t.length))) - h.len)
          0⟩ :=
    heap_wf_mk (by omega) hmax hbuf
  simp only [IString.push_str, wf_is_inline_heap hw, len_heap hw, capacity_heap hw,
    Bool.false_eq_true, if_false]
  rw [if_pos (by omega)]
  rw [resize_grow hw (by omega) hmax]
  simp only []
  rw [set_len_heap hw1 (by omega : h.len + t.length ≤
    max 8 (max (2 * h.cap) (next_power_of_two (h.len + t.length))))]
  simp only []
  rw [writeBytes_heap hw2 (le_refl _)]

theorem set_len_wf {v w : IString} {n : Nat} (hw : v.wf) (h : v.set_len n = some w) :
    w.wf := by
  cases v with
  | inline i =>
    simp only [IString.set_len, wf_is_inline_inline hw, capacity_inline hw, if_true] at h
    split at h
    · rename_i hn
      simp only [Option.some.injEq] at h
      subst h
      exact wf_mk_inline hw.1 hn
    · exact absurd h (by simp)
  | heap hp =>
    simp only [IString.set_len, wf_is_inline_heap hw, capacity_heap hw, Bool.false_eq_true,
      if_false] at h
    split at h
    · rename_i hn
      simp only [Option.some.injEq] at h
      subst h
      exact heap_wf_mk hn hw.2.1 hw.2.2
    · exact absurd h (by simp)

theorem writeBytes_wf {v w : IString} {off : Nat} {t : List Nat} (hw : v.wf)
    (h : v.writeBytes off t = some w) : w.wf := by
  cases v with
  | inline i =>
    simp only [IString.writeBytes, wf_is_inline_inline hw, len_inline hw, if_true] at h
    split at h
    · split at h
      · rename_i hoff hlen
        simp only [Option.some.injEq] at h
        subst h
        refine ⟨?_, hw.2.1, hw.2.2⟩
        rw [writeAt_length (by omega)]
        exact hw.1
      · exact absurd h (by simp)
    · exact absurd h (by simp)
  | heap hp =>
    simp only [IString.writeBytes, wf_is_inline_heap hw, len_heap hw, Bool.false_eq_true,
      if_false] at h
    split at h
    · split at h
      · rename_i hoff hlen
        simp only [Option.some.injEq] at h
        subst h
        refine ⟨hw.1, hw.2.1, ?_⟩
        rw [writeAt_length (by omega)]
        exact hw.2.2
      · exact absurd h (by simp)
    · exact absurd h (by simp)

theorem stringReserve_wf {hp h2 : Heap} {a : Nat} {ev : List Event} (hw : hp.wf)
    (h : stringReserve hp a = some (h2, ev)) : h2.wf := by
  simp only [stringReserve] at h
  split at h
  · simp only [Option.some.injEq, Prod.mk.injEq] at h
    exact h.1 ▸ hw
  · split at h
    · rename_i hgt hmax
      simp only [Option.some.injEq, Prod.mk.injEq] at h
      obtain ⟨h1, -⟩ := h
      subst h1
      refine heap_wf_mk (by omega) hmax ?_
      have hb := hw.2.2
      have hl := hw.1
      simp only [List.length_append, List.length_take, List.length_replicate]
      omega
    · exact absurd h (by simp)

theorem move_to_heap_wf {v w : IString} {c : Nat} {ev : List Event} (hw : v.wf)
    (h : v.move_to_heap c = some (w, ev)) : w.wf := by
  cases v with
  | inline i =>
    have hl := low7_le hw
    simp only [IString.move_to_heap, wf_is_inline_inline hw, len_inline hw, if_true] at h
    split at h
    · rename_i hc
      split at h
      · exact absurd h (by simp)
      · rename_i p ev1 heq
        simp only [Option.some.injEq, Prod.mk.injEq] at h
        obtain ⟨h1, -⟩ := h
        subst h1
        have hcM : c < MAX_CAPACITY := by
          simp only [allocBuf] at heq
          split at heq
          · rename_i hz
            simp only [MAX_CAPACITY]
            omega
          · split at heq
            · rename_i hmax
              exact hmax
            · exact absurd heq (by simp)
        refine heap_wf_mk (by omega) hcM ?_
        simp only [List.length_append, List.length_take, List.length_replicate, hw.1]
        simp only [INLINE_CAPACITY] at *
        omega
    · exact absurd h (by simp)
  | heap hp =>
    simp only [IString.move_to_heap, wf_is_inline_heap hw, Bool.false_eq_true, if_false,
      Option.some.injEq, Prod.mk.injEq] at h
    exact h.1 ▸ hw

theorem resize_wf {v w : IString} {c : Nat} {ev : List Event} (hw : v.wf)
    (h : v.resize c = some (w, ev)) : w.wf := by
  cases v with
  | inline i =>
    simp only [IString.resize, wf_is_inline_inline hw, if_true] at h
    exact absurd h (by simp)
  | heap hp =>
    simp only [IString.resize, wf_is_inline_heap hw, Bool.false_eq_true, if_false,
      len_heap hw] at h
    split at h
    · split at h
      · rename_i hc heq
        rename_i hsr
        simp only [Option.some.injEq, Prod.mk.injEq] at h
        obtain ⟨h1, -⟩ := h
        subst h1
        exact stringReserve_wf hw heq
      · exact absurd h (by simp)
    · exact absurd h (by simp)

theorem new_wf : IString.new.wf := by decide

theorem asInlineView_data_length (h : Heap) :
    h.asInlineView.data.length = INLINE_CAPACITY := by
  simp [Heap.asInlineView, le64, INLINE_CAPACITY]

theorem with_capacity_wf {c : Nat} {w : IString} {ev : List Event}
    (h : IString.with_capacity c = some (w, ev)) : w.wf := by
  simp only [IString.with_capacity] at h
  split at h
  · rename_i hM
    split at h
    · split at h
      · rename_i p ev1 heq
        simp only [Option.some.injEq, Prod.mk.injEq] at h
        obtain ⟨h1, -⟩ := h
        subst h1
        exact heap_wf_mk (Nat.zero_le c) hM (by simp)
      · exact absurd h (by simp)
    · simp only [Option.some.injEq, Prod.mk.injEq] at h
      obtain ⟨h1, -⟩ := h
      subst h1
      exact new_wf
  · exact absurd h (by simp)

theorem pushStr_wf {v w : IString} {t : List Nat} {ev : List Event} (hw : v.wf)
    (h : v.push_str t = some (w, ev)) : w.wf := by
  simp only [IString.push_str] at h
  split at h
  · exact absurd h (by simp)
  · rename_i s1 ev1 heq
    have hw1 : s1.wf := by
      split at heq
      · split at heq
        · exact move_to_heap_wf hw heq
        · simp only [Option.some.injEq, Prod.mk.injEq] at heq
          exact heq.1 ▸ hw
      · split at heq
        · exact resize_wf hw heq
        · simp only [Option.some.injEq, Prod.mk.injEq] at heq
          exact heq.1 ▸ hw
    split at h
    · exact absurd h (by simp)
    · rename_i s2 heq2
      split at h
      · exact absurd h (by simp)
      · rename_i s3 heq3
        simp only [Option.some.injEq, Prod.mk.injEq] at h
        obtain ⟨h1, -⟩ := h
        subst h1
        exact writeBytes_wf (set_len_wf hw1 heq2) heq3

theorem push_wf {v w : IString} {c : Nat} {ev : List Event} (hw : v.wf)
    (h : v.push c = some (w, ev)) : w.wf :=
  pushStr_wf hw h

theorem reserve_wf {v w : IString} {n : Nat} {ev : List Event} (hw : v.wf)
    (h : v.reserve n = some (w, ev)) : w.wf := by
  simp only [IString.reserve] at h
  split at h
  · split at h
    · exact move_to_heap_wf hw h
    · simp only [Option.some.injEq, Prod.mk.injEq] at h
      exact h.1 ▸ hw
  · exact resize_wf hw h

theorem reserve_exact_wf {v w : IString} {n : Nat} {ev : List Event} (hw : v.wf)
    (h : v.reserve_exact n = some (w, ev)) : w.wf := by
  simp only [IString.reserve_exact] at h
  split at h
  · exact move_to_heap_wf hw h
  · exact resize_wf hw h

theorem truncate_wf {v w : IString} {n : Nat} (hw : v.wf) (h : v.truncate n = some w) :
    w.wf := by
  simp only [IString.truncate] at h
  split at h
  · exact set_len_wf hw h
  · simp only [Option.some.injEq] at h
    exact h ▸ hw

theorem shrink_wf {v w : IString} {ev : List Event} (hw : v.wf)
    (h : v.shrink = some (w, ev)) : w.wf := by
  cases v with
  | inline i =>
    simp only [IString.shrink, IString.resize, wf_is_inline_inline hw, if_true] at h
    split at h <;> exact absurd h (by simp)
  | heap hp =>
    simp only [IString.shrink, len_heap hw] at h
    split at h
    · rename_i hcond
      split at h
      · rename_i hlen
        simp only [Option.some.injEq, Prod.mk.injEq] at h
        obtain ⟨h1, -⟩ := h
        subst h1
        refine wf_mk_inline ?_ hcond
        rw [writeAt_length]
        · exact asInlineView_data_length hp
        · rw [asInlineView_data_length hp]
          simp only [List.length_take, Nat.zero_add]
          omega
      · exact absurd h (by simp)
    · exact resize_wf hw h

theorem clone_wf {v w : IString} {ev : List Event} (hw : v.wf)
    (h : v.clone = some (w, ev)) : w.wf := by
  cases v with
  | inline i =>
    simp only [IString.clone, wf_is_inline_inline hw, if_true, Option.some.injEq,
      Prod.mk.injEq] at h
    obtain ⟨h1, -⟩ := h
    exact h1 ▸ hw
  | heap hp =>
    simp only [IString.clone, wf_is_inline_heap hw, Bool.false_eq_true, if_false] at h
    split at h
    · exact absurd h (by simp)
    · rename_i bs heq1
      split at h
      · exact absurd h (by simp)
      · rename_i c ev1 heq2
        split at h
        · exact absurd h (by simp)
        · rename_i w2 ev2 heq3
          simp only [Option.some.injEq, Prod.mk.injEq] at h
          obtain ⟨h1, -⟩ := h
          subst h1
          exact pushStr_wf (with_capacity_wf heq2) heq3

theorem fromStr_wf {t : List Nat} {w : IString} {ev : List Event}
    (h : IString.fromStr t = some (w, ev)) : w.wf := by
  simp only [IString.fromStr] at h
  split at h
  · exact absurd h (by simp)
  · rename_i v ev1 heq
    split at h
    · exact absurd h (by simp)
    · rename_i w2 ev2 heq2
      simp only [Option.some.injEq, Prod.mk.injEq] at h
      obtain ⟨h1, -⟩ := h
      subst h1
      exact pushStr_wf (with_capacity_wf heq) heq2

theorem from_string_wf {r : RustString} (hr : r.wfS) : (IString.from_string r).wf := by
  simp only [IString.from_string]
  split
  · exact heap_wf_mk hr.1 hr.2.1 hr.2.2
  · exact new_wf

theorem wf_discr {s : IString} (hw : s.wf) :
    s.is_inline = true ↔ ∃ i, s = .inline i := by
  cases s with
  | inline i => exact ⟨fun _ => ⟨i, rfl⟩, fun _ => wf_is_inline_inline hw⟩
  | heap hp =>
    rw [wf_is_inline_heap hw]
    simp

theorem wf_len_le {s : IString} (hw : s.wf) (hi : s.is_inline = true) :
    s.len ≤ INLINE_CAPACITY := by
  cases s with
  | inline i => exact len_inline hw ▸ low7_le hw
  | heap hp => exact absurd hi (by rw [wf_is_inline_heap hw]; simp)

theorem wf_cap_bounds {s : IString} (hw : s.wf) (hi : s.is_inline = false) :
    s.len ≤ s.capacity ∧ s.capacity < MAX_CAPACITY := by
  cases s with
  | inline i => exact absurd hi (by rw [wf_is_inline_inline hw]; simp)
  | heap hp =>
    rw [len_heap hw, capacity_heap hw]
    exact ⟨hw.1, hw.2.1⟩

theorem as_bytes_length {v : IString} {b : List Nat} (hw : v.wf) (hb : v.as_bytes = some b) :
    b.length = v.len := by
  cases v with
  | inline i =>
    rw [as_bytes_inline hw] at hb
    simp only [Option.some.injEq] at hb
    subst hb
    rw [len_inline hw]
    have hl := low7_le hw
    have hd := hw.1
    simp only [List.length_take, INLINE_CAPACITY] at *
    omega
  | heap hp =>
    rw [as_bytes_heap hw] at hb
    simp only [Option.some.injEq] at hb
    subst hb
    rw [len_heap hw]
    have h1 := hw.1
    have h3 := hw.2.2
    simp only [List.length_take]
    omega

theorem pushStr_spec {v : IString} {t b : List Nat} (hw : v.wf) (hb : v.as_bytes = some b)
    (hbound : v.len + t.length ≤ 2 ^ 62) :
    ∃ w ev, v.push_str t = some (w, ev) ∧ w.wf ∧ w.as_bytes = some (b ++ t) ∧
      w.len = v.len + t.length ∧ w.len ≤ w.capacity := by
  cases v with
  | inline i =>
    have hd := hw.1
    have hl := low7_le hw
    rw [as_bytes_inline hw] at hb
    simp only [Option.some.injEq] at hb
    subst hb
    rw [len_inline hw] at hbound ⊢
    by_cases hfit : low7 i.len + t.length ≤ INLINE_CAPACITY
    · have hlen2 : low7 i.len + t.length ≤ i.data.length := by
        simp only [INLINE_CAPACITY] at *
        omega
      have hw2 : Inline.wf ⟨writeAt i.data (low7 i.len) t, withBit7 (low7 i.len + t.length)⟩ := by
        refine wf_mk_inline ?_ hfit
        rw [writeAt_length hlen2]
        exact hd
      have hlow : low7 (withBit7 (low7 i.len + t.length)) = low7 i.len + t.length :=
        low7_withBit7 (by simp only [INLINE_CAPACITY] at hfit; omega)
      refine ⟨_, _, pushStr_inline_fit hw hfit, hw2, ?_, ?_, ?_⟩
      · rw [as_bytes_inline hw2, hlow, writeAt_take (by omega)]
      · rw [len_inline hw2]
        exact hlow
      · rw [len_inline hw2, capacity_inline hw2, hlow]
        exact hfit
    · have hnp := le_next_power_of_two (low7 i.len + t.length)
      have hnp2 := next_power_of_two_le (k := 62) hbound
      have hmax : next_power_of_two (low7 i.len + t.length) < MAX_CAPACITY := by
        have h62 : (2 : Nat) ^ 62 < 2 ^ 63 - 1 := by norm_num
        simp only [MAX_CAPACITY]
        omega
      have hbuf : (i.data.take (low7 i.len) ++
          List.replicate (next_power_of_two (low7 i.len + t.length) - low7 i.len) 0).length =
          next_power_of_two (low7 i.len + t.length) := by
        simp only [List.length_append, List.length_take, List.length_replicate]
        simp only [INLINE_CAPACITY] at *
        omega
      have hw2 : Heap.wf ⟨freshPtr, next_power_of_two (low7 i.len + t.length),
          low7 i.len + t.length,
          writeAt (i.data.take (low7 i.len) ++
            List.replicate (next_power_of_two (low7 i.len + t.length) - low7 i.len) 0)
            (low7 i.len) t⟩ := by
        refine heap_wf_mk hnp hmax ?_
        rw [writeAt_length (by rw [hbuf]; omega)]
        exact hbuf
      refine ⟨_, _, pushStr_inline_grow hw (by omega) hbound, hw2, ?_, ?_, ?_⟩
      · rw [as_bytes_heap hw2]
        rw [writeAt_take (by rw [hbuf]; omega)]
        rw [take_append_left (by
          simp only [List.length_take]
          simp only [INLINE_CAPACITY] at *
          omega)]
      · exact len_heap hw2
      · rw [len_heap hw2, capacity_heap hw2]
        exact hnp
  | heap hp =>
    have h1 := hw.1
    have h3 := hw.2.2
    rw [as_bytes_heap hw] at hb
    simp only [Option.some.injEq] at hb
    subst hb
    rw [len_heap hw] at hbound ⊢
    by_cases hfit : hp.len + t.length ≤ hp.cap
    · have hw2 : Heap.wf ⟨hp.ptr, hp.cap, hp.len + t.length, writeAt hp.buf hp.len t⟩ := by
        refine heap_wf_mk hfit hw.2.1 ?_
        rw [writeAt_length (by omega)]
        exact h3
      refine ⟨_, _, pushStr_heap_fit hw hfit, hw2, ?_, ?_, ?_⟩
      · rw [as_bytes_heap hw2, writeAt_take (by omega)]
      · exact len_heap hw2
      · rw [len_heap hw2, capacity_heap hw2]
        exact hfit
    · have hnp := le_next_power_of_two (hp.len + t.length)
      have hnp2 := next_power_of_two_le (k := 62) hbound
      have hmax : max 8 (max (2 * hp.cap) (next_power_of_two (hp.len + t.length))) <
          MAX_CAPACITY := by
        have h62 : (2 : Nat) ^ 62 < 2 ^ 63 - 1 := by norm_num
        simp only [MAX_CAPACITY]
        omega
      have hbuf : (hp.buf.take hp.len ++
          List.replicate
            (max 8 (max (2 * hp.cap) (next_power_of_two (hp.len + t.length))) - hp.len)
            0).length =
          max 8 (max (2 * hp.cap) (next_power_of_two (hp.len + t.length))) := by
        simp only [List.length_append, List.length_take, List.length_replicate]
        omega
      have hw2 : Heap.wf ⟨freshPtr,
          max 8 (max (2 * hp.cap) (next_power_of_two (hp.len + t.length))),
          hp.len + t.length,
          writeAt (hp.buf.take hp.len ++
            List.replicate
              (max 8 (max (2 * hp.cap) (next_power_of_two (hp.len + t.length))) - hp.len) 0)
            hp.len t⟩ := by
        refine heap_wf_mk (by omega) hmax ?_
        rw [writeAt_length (by rw [hbuf]; omega)]
        exact hbuf
      refine ⟨_, _, pushStr_heap_grow hw (by omega) hbound, hw2, ?_, ?_, ?_⟩
      · rw [as_bytes_heap hw2]
        rw [writeAt_take (by rw [hbuf]; omega)]
        rw [take_append_left (by simp only [List.length_take]; omega)]
      · exact len_heap hw2
      · rw [len_heap hw2, capacity_heap hw2]
        exact le_trans hnp (le_trans (le_max_right (2 * hp.cap) _) (le_max_right 8 _))

theorem hasBit7_withBit7 (n : Nat) : hasBit7 (withBit7 n) = true := by
  have h : n % 128 < 128 := Nat.mod_lt _ (by omega)
  exact hasBit7_true (by simp only [withBit7, IS_INLINE]; omega)
    (by simp only [withBit7, IS_INLINE]; omega)

theorem fromStr_small {t : List Nat} (h : t.length ≤ INLINE_CAPACITY) :
    IString.fromStr t =
      some (.inline ⟨t ++ List.replicate (INLINE_CAPACITY - t.length) 0, withBit7 t.length⟩,
        []) := by
  have h0 : low7 IS_INLINE = 0 := by decide
  simp only [IString.fromStr]
  rw [with_capacity_small h]
  simp only []
  rw [pushStr_inline_fit new_wf (by rw [h0]; omega)]
  rw [h0]
  simp only [writeAt, List.take_zero, List.nil_append, Nat.zero_add, List.drop_replicate]

theorem fromStr_large {t : List Nat} (hgt : INLINE_CAPACITY < t.length)
    (hmax : t.length < MAX_CAPACITY) :
    IString.fromStr t =
      some (.heap ⟨freshPtr, t.length, t.length, t⟩, [Event.alloc freshPtr t.length]) := by
  have hw0 : Heap.wf ⟨freshPtr, t.length, 0, List.replicate t.length 0⟩ :=
    heap_wf_mk (Nat.zero_le _) hmax (by simp)
  simp only [IString.fromStr]
  rw [with_capacity_large hgt hmax]
  simp only []
  rw [pushStr_heap_fit hw0 (by simp)]
  simp only [writeAt, List.take_zero, List.nil_append, Nat.zero_add, List.drop_replicate,
    Nat.sub_self, List.replicate_zero, List.append_nil]

theorem smallNew_small {t : List Nat} (h : t.length ≤ Small.INLINE_CAPACITY) :
    Small.SmallString.new t =
      some (.inline ⟨t ++ List.replicate (Small.INLINE_CAPACITY - t.length) 0,
        withBit7 t.length⟩, []) := by
  simp only [Small.SmallString.new, Small.SmallString.from_inline]
  rw [if_neg (by omega), if_pos h]
  simp only [writeAt, List.take_zero, List.nil_append, Nat.zero_add, List.drop_replicate]

theorem smallNew_large {t : List Nat} (hgt : Small.INLINE_CAPACITY < t.length)
    (hmax : t.length < MAX_CAPACITY) :
    Small.SmallString.new t =
      some (.heap ⟨freshPtr, t.length, t⟩, [Event.alloc freshPtr t.length]) := by
  have hb : hasBit7 (t.length / 2 ^ 56 % 256) = false :=
    hasBit7_false (by simp only [IS_INLINE, MAX_CAPACITY] at *; omega)
  simp only [Small.SmallString.new, allocBuf, Small.SmallString.from_heap]
  rw [if_pos hgt, if_neg (by simp only [Small.INLINE_CAPACITY] at hgt; omega), if_pos hmax]
  simp only [hb, Bool.false_eq_true, if_false]

theorem small_as_bytes_inline {t : List Nat} (h : t.length ≤ Small.INLINE_CAPACITY) :
    (Small.SmallString.inline ⟨t ++ List.replicate (Small.INLINE_CAPACITY - t.length) 0,
      withBit7 t.length⟩).as_bytes = some t := by
  have hlow : low7 (withBit7 t.length) = t.length :=
    low7_withBit7 (by simp only [Small.INLINE_CAPACITY] at h; omega)
  simp only [Small.SmallString.as_bytes, Small.SmallString.is_inline, Small.SmallString.len,
    hasBit7_withBit7, if_true, hlow]
  rw [if_pos (by
    simp only [List.length_append, List.length_replicate]
    omega)]
  rw [take_append_left rfl]

theorem small_as_bytes_heap {t : List Nat} {p : Nat} (hmax : t.length < 2 ^ 63) :
    (Small.SmallString.heap ⟨p, t.length, t⟩).as_bytes = some t := by
  have hb : ((t.length / 2 ^ 63 % 2 : Nat) == 1) = false := by
    simp only [beq_eq_false_iff_ne, ne_eq]
    omega
  simp only [Small.SmallString.as_bytes, Small.SmallString.is_inline, Small.SmallString.len,
    hb, Bool.false_eq_true, if_false]
  rw [if_pos (le_refl _), List.take_length]

theorem len_heap_lt {h : Heap} (hlen : h.len < 2 ^ 63) : (IString.heap h).len = h.len := by
  simp [IString.len, is_inline_heap hlen]

theorem capacity_heap_lt {h : Heap} (hlen : h.len < 2 ^ 63) :
    (IString.heap h).capacity = h.cap := by
  simp [IString.capacity, is_inline_heap hlen]

theorem shrink_heap_small {h : Heap} (hw : (IString.heap h).wf)
    (hlen : h.len ≤ INLINE_CAPACITY) :
    (IString.heap h).shrink =
      some (.inline ⟨writeAt h.asInlineView.data 0 (h.buf.take h.len), withBit7 h.len⟩,
        if h.cap = 0 then [] else [Event.dealloc h.ptr h.cap]) := by
  have h1 := hw.1
  have h3 := hw.2.2
  simp only [IString.shrink, len_heap hw]
  rw [if_pos hlen, if_pos (by omega)]

/-- C1: for every valid UTF-8 byte string (of platform-representable length),
constructing an IString via From (with_capacity + push_str) and a SmallString
via new and reading the bytes back through as_bytes reproduces the input
exactly, covering the empty string and maximum-inline-length strings. -/
theorem c1_roundtrip (bs : List Nat) (hvalid : utf8Valid bs = true)
    (hlen : bs.length < MAX_CAPACITY) :
    (∃ v ev, IString.fromStr bs = some (v, ev) ∧ v.as_bytes = some bs) ∧
    (∃ s ev, Small.SmallString.new bs = some (s, ev) ∧ s.as_bytes = some bs) := by
  constructor
  · by_cases h : bs.length ≤ INLINE_CAPACITY
    · refine ⟨_, _, fromStr_small h, ?_⟩
      have hw2 : Inline.wf ⟨bs ++ List.replicate (INLINE_CAPACITY - bs.length) 0,
          withBit7 bs.length⟩ := by
        refine wf_mk_inline ?_ h
        simp only [List.length_append, List.length_replicate]
        omega
      rw [as_bytes_inline hw2,
        low7_withBit7 (by simp only [INLINE_CAPACITY] at h; omega),
        take_append_left rfl]
    · refine ⟨_, _, fromStr_large (by omega) hlen, ?_⟩
      have hw2 : Heap.wf ⟨freshPtr, bs.length, bs.length, bs⟩ :=
        heap_wf_mk (le_refl _) hlen rfl
      rw [as_bytes_heap hw2, List.take_length]
  · by_cases h : bs.length ≤ Small.INLINE_CAPACITY
    · exact ⟨_, _, smallNew_small h, small_as_bytes_inline h⟩
    · exact ⟨_, _, smallNew_large (by omega) hlen,
        small_as_bytes_heap (by simp only [MAX_CAPACITY] at hlen; omega)⟩

/-- C1 witness: the roundtrip evaluated at a concrete short string. -/
theorem c1_roundtrip_witness :
    utf8Valid [72, 101, 108] = true ∧ ([72, 101, 108] : List Nat).length < MAX_CAPACITY ∧
    ((∃ v ev, IString.fromStr [72, 101, 108] = some (v, ev) ∧
        v.as_bytes = some [72, 101, 108]) ∧
      (∃ s ev, Small.SmallString.new [72, 101, 108] = some (s, ev) ∧
        s.as_bytes = some [72, 101, 108])) :=
  ⟨by decide, by decide, c1_roundtrip [72, 101, 108] (by decide) (by decide)⟩

/-- C2: all values reachable through the safe operations satisfy the
representation invariant wf; under wf the discriminant bit is set exactly when
the inline shape is stored, the inline length is at most INLINE_CAPACITY, the
heap capacity dominates the length and stays below MAX_CAPACITY; and every
operation that completes preserves wf. -/
theorem c2_invariant (s : IString) (t : List Nat) (c n ch : Nat) (r : RustString)
    (hw : s.wf) :
    (s.is_inline = true ↔ ∃ i, s = .inline i) ∧
    (s.is_inline = true → s.len ≤ INLINE_CAPACITY) ∧
    (s.is_inline = false → s.len ≤ s.capacity ∧ s.capacity < MAX_CAPACITY) ∧
    IString.new.wf ∧
    (∀ w ev, IString.with_capacity c = some (w, ev) → w.wf) ∧
    (∀ w ev, s.push_str t = some (w, ev) → w.wf) ∧
    (∀ w ev, s.push ch = some (w, ev) → w.wf) ∧
    (∀ w ev, s.reserve n = some (w, ev) → w.wf) ∧
    (∀ w ev, s.reserve_exact n = some (w, ev) → w.wf) ∧
    (∀ w, s.truncate n = some w → w.wf) ∧
    (∀ w ev, s.shrink = some (w, ev) → w.wf) ∧
    (∀ w ev, s.move_to_heap c = some (w, ev) → w.wf) ∧
    (∀ w ev, s.clone = some (w, ev) → w.wf) ∧
    (∀ w ev, IString.fromStr t = some (w, ev) → w.wf) ∧
    (r.wfS → (IString.from_string r).wf) :=
  ⟨wf_discr hw, wf_len_le hw, wf_cap_bounds hw, new_wf,
    fun _ _ h => with_capacity_wf h,
    fun _ _ h => pushStr_wf hw h,
    fun _ _ h => push_wf hw h,
    fun _ _ h => reserve_wf hw h,
    fun _ _ h => reserve_exact_wf hw h,
    fun _ h => truncate_wf hw h,
    fun _ _ h => shrink_wf hw h,
    fun _ _ h => move_to_heap_wf hw h,
    fun _ _ h => clone_wf hw h,
    fun _ _ h => fromStr_wf h,
    fun hr => from_string_wf hr⟩

/-- C2 witness: the invariant facts instantiated at a concrete heap value. -/
theorem c2_invariant_witness :
    (IString.heap ⟨2, 26, 26, List.replicate 26 65⟩).wf ∧
    ((IString.heap ⟨2, 26, 26, List.replicate 26 65⟩).is_inline = true ↔
      ∃ i, IString.heap ⟨2, 26, 26, List.replicate 26 65⟩ = .inline i) :=
  ⟨by decide,
    (c2_invariant (IString.heap ⟨2, 26, 26, List.replicate 26 65⟩) [] 0 0 0 ⟨0, 0, 0, []⟩
      (by decide)).1⟩

/-- C3: push_str appends without corrupting the existing bytes: the result
reads back as the old content followed by the appended bytes, the length is
the sum of the lengths, and the capacity dominates the new length. -/
theorem c3_push_str (v : IString) (t b : List Nat) (hw : v.wf) (hb : v.as_bytes = some b)
    (hbound : v.len + t.length ≤ 2 ^ 62) :
    ∃ w ev, v.push_str t = some (w, ev) ∧ w.as_bytes = some (b ++ t) ∧
      w.len = b.length + t.length ∧ w.len ≤ w.capacity := by
  obtain ⟨w, ev, h1, h2, h3, h4, h5⟩ := pushStr_spec hw hb hbound
  exact ⟨w, ev, h1, h3, by rw [h4, as_bytes_length hw hb], h5⟩

/-- C3 witness: appending one byte to the empty value. -/
theorem c3_push_str_witness :
    IString.new.wf ∧ IString.new.as_bytes = some [] ∧
    IString.new.len + ([33] : List Nat).length ≤ 2 ^ 62 ∧
    (∃ w ev, IString.new.push_str [33] = some (w, ev) ∧ w.as_bytes = some ([] ++ [33]) ∧
      w.len = ([] : List Nat).length + ([33] : List Nat).length ∧ w.len ≤ w.capacity) :=
  ⟨by decide, by decide, by decide,
    c3_push_str IString.new [33] [] (by decide) (by decide) (by decide)⟩

/-- C4: From on a byte string of length at most INLINE_CAPACITY builds an
inline value with no allocator interaction; on a longer string it builds a
heap value through a single allocation of exactly the input length, with
capacity and length equal to that length. -/
theorem c4_construction (bs : List Nat) (hlen : bs.length < MAX_CAPACITY) :
    (bs.length ≤ INLINE_CAPACITY →
      ∃ v, IString.fromStr bs = some (v, []) ∧ v.is_inline = true) ∧
    (INLINE_CAPACITY < bs.length →
      ∃ v, IString.fromStr bs = some (v, [Event.alloc freshPtr bs.length]) ∧
        v.is_inline = false ∧ v.capacity = bs.length ∧ v.len = bs.length) := by
  constructor
  · intro h
    refine ⟨_, fromStr_small h, ?_⟩
    rw [is_inline_inline]
    exact hasBit7_withBit7 _
  · intro h
    have hl63 : bs.length < 2 ^ 63 := by simp only [MAX_CAPACITY] at hlen; omega
    refine ⟨_, fromStr_large h hlen, is_inline_heap hl63, capacity_heap_lt hl63,
      len_heap_lt hl63⟩

/-- C4 witness: a 3-byte string stays inline with no events, a 24-byte string
goes to the heap via one exact allocation. -/
theorem c4_construction_witness :
    (([72, 101, 108] : List Nat).length < MAX_CAPACITY ∧
      ∃ v, IString.fromStr [72, 101, 108] = some (v, []) ∧ v.is_inline = true) ∧
    ((List.replicate 24 65 : List Nat).length < MAX_CAPACITY ∧
      ∃ v, IString.fromStr (List.replicate 24 65) =
          some (v, [Event.alloc freshPtr (List.replicate 24 65).length]) ∧
        v.is_inline = false ∧ v.capacity = (List.replicate 24 65).length ∧
        v.len = (List.replicate 24 65).length) :=
  ⟨⟨by decide, (c4_construction [72, 101, 108] (by decide)).1 (by decide)⟩,
    ⟨by decide, (c4_construction (List.replicate 24 65) (by decide)).2 (by decide)⟩⟩

/-- C5 (code bug exhibit): truncate performs no char-boundary check, so
truncating the 2-byte encoding of U+00E9 to 1 byte leaves the lone lead byte
0xC3 observable through as_bytes, which is not valid UTF-8 — violating the
spec invariant that content is valid UTF-8 at every observable boundary. -/
theorem c5_truncate_utf8_violation :
    ((IString.fromStr [195, 169]).bind (fun p => p.1.truncate 1)).bind
        (fun w => w.as_bytes) = some [195] ∧
    utf8Valid [195, 169] = true ∧ utf8Valid [195] = false :=
  ⟨by decide, by decide, by decide⟩

/-- C6: shrink on a heap value whose length fits inline demotes it to the
inline shape (discriminant set) with identical content and length, and emits
exactly one deallocation of the previously owned heap buffer. -/
theorem c6_shrink (h : Heap) (hw : (IString.heap h).wf) (hlen : h.len ≤ INLINE_CAPACITY)
    (hcap : 0 < h.cap) :
    ∃ w, (IString.heap h).shrink = some (w, [Event.dealloc h.ptr h.cap]) ∧
      w.is_inline = true ∧ w.as_bytes = (IString.heap h).as_bytes ∧
      w.len = (IString.heap h).len := by
  have h1 := hw.1
  have h3 := hw.2.2
  have hlow : low7 (withBit7 h.len) = h.len :=
    low7_withBit7 (by simp only [INLINE_CAPACITY] at hlen; omega)
  have hwi : Inline.wf ⟨writeAt h.asInlineView.data 0 (h.buf.take h.len), withBit7 h.len⟩ := by
    refine wf_mk_inline ?_ hlen
    rw [writeAt_length (by
      rw [asInlineView_data_length h]
      have hc := hlen
      simp only [List.length_take, Nat.zero_add, INLINE_CAPACITY] at hc ⊢
      omega)]
    exact asInlineView_data_length h
  refine ⟨.inline ⟨writeAt h.asInlineView.data 0 (h.buf.take h.len), withBit7 h.len⟩,
    ?_, ?_, ?_, ?_⟩
  · rw [shrink_heap_small hw hlen, if_neg (by omega)]
  · rw [is_inline_inline]
    exact hasBit7_withBit7 _
  · rw [as_bytes_inline hwi, as_bytes_heap hw, hlow]
    simp only [writeAt, List.take_zero, List.nil_append, Nat.zero_add]
    rw [take_append_left (by simp only [List.length_take]; omega)]
  · rw [len_inline hwi, len_heap hw]
    exact hlow

/-- C6 witness: shrinking a concrete truncated heap value re-inlines it and
releases the old buffer once. -/
theorem c6_shrink_witness :
    (IString.heap ⟨7, 26, 5, List.replicate 26 65⟩).wf ∧
    (5 : Nat) ≤ INLINE_CAPACITY ∧ (0 : Nat) < 26 ∧
    (∃ w, (IString.heap ⟨7, 26, 5, List.replicate 26 65⟩).shrink =
        some (w, [Event.dealloc 7 26]) ∧
      w.is_inline = true ∧
      w.as_bytes = (IString.heap ⟨7, 26, 5, List.replicate 26 65⟩).as_bytes ∧
      w.len = (IString.heap ⟨7, 26, 5, List.replicate 26 65⟩).len) :=
  ⟨by decide, by decide, by decide,
    c6_shrink ⟨7, 26, 5, List.replicate 26 65⟩ (by decide) (by decide) (by decide)⟩

/-- C7: to_heap on a heap value yields its raw parts with no allocator events
(destructor suppressed) and from_heap rebuilds the identical value; to_inline
clears the discriminant bit on extraction and from_inline restores it,
rebuilding the identical inline value; and from_heap rejects raw parts whose
length word carries the discriminant bit. -/
theorem c7_ownership_roundtrip (h : Heap) (i : Inline) (h2 : Heap)
    (hwh : (IString.heap h).wf) (hwi : Inline.wf i)
    (hbit : 2 ^ 63 ≤ h2.len) (hlt : h2.len < 2 ^ 64) :
    (IString.heap h).to_heap = some (h, []) ∧
    IString.from_heap h = some (.heap h) ∧
    (IString.inline i).to_inline = some ({ i with len := low7 i.len }, []) ∧
    IString.from_inline { i with len := low7 i.len } = some (.inline i) ∧
    IString.from_heap h2 = none := by
  have hl63 : h.len < 2 ^ 63 := by
    have := hwh.1
    have := hwh.2.1
    simp only [MAX_CAPACITY] at *
    omega
  refine ⟨?_, ?_, ?_, ?_, ?_⟩
  · simp only [IString.to_heap, wf_is_inline_heap hwh, Bool.false_eq_true, if_false]
  · simp only [IString.from_heap, hasBit7_false (b := h.len / 2 ^ 56 % 256)
      (by simp only [IS_INLINE]; omega), Bool.false_eq_true, if_false]
  · simp only [IString.to_inline, wf_is_inline_inline hwi, if_true]
  · have heq : withBit7 (low7 i.len) = i.len := by
      obtain ⟨-, hb1, hb2⟩ := hwi
      simp only [withBit7, low7, IS_INLINE, INLINE_CAPACITY] at *
      omega
    simp only [IString.from_inline]
    rw [if_pos (by
      have := low7_le hwi
      simp only [low7] at *
      exact this)]
    rw [heq]
  · simp only [IString.from_heap, hasBit7_true (b := h2.len / 2 ^ 56 % 256)
      (by simp only [IS_INLINE]; omega) (by omega), if_true]

/-- C7 witness: the ownership-transfer roundtrips at concrete values, and
from_heap rejecting a length with the discriminant bit set. -/
theorem c7_ownership_roundtrip_witness :
    (IString.heap ⟨3, 30, 26, List.replicate 30 65⟩).wf ∧
    Inline.wf ⟨List.replicate 23 66, 133⟩ ∧
    ((IString.heap ⟨3, 30, 26, List.replicate 30 65⟩).to_heap =
        some (⟨3, 30, 26, List.replicate 30 65⟩, []) ∧
      IString.from_heap ⟨3, 30, 26, List.replicate 30 65⟩ =
        some (.heap ⟨3, 30, 26, List.replicate 30 65⟩) ∧
      (IString.inline ⟨List.replicate 23 66, 133⟩).to_inline =
        some ({ (⟨List.replicate 23 66, 133⟩ : Inline) with len := low7 133 }, []) ∧
      IString.from_inline
          { (⟨List.replicate 23 66, 133⟩ : Inline) with len := low7 133 } =
        some (.inline ⟨List.replicate 23 66, 133⟩) ∧
      IString.from_heap ⟨0, 0, 2 ^ 63, []⟩ = none) :=
  ⟨by decide, by decide,
    c7_ownership_roundtrip ⟨3, 30, 26, List.replicate 30 65⟩ ⟨List.replicate 23 66, 133⟩
      ⟨0, 0, 2 ^ 63, []⟩ (by decide) (by decide) (by decide) (by decide)⟩

/-- C8 counterexample: reserve(2) on a fresh inline value grows the capacity
to exactly 25 = INLINE_CAPACITY + 2, which is not a power of two at all, so the
new capacity is not the next power of two of any required size. -/
theorem c8_reserve_counterexample :
    (IString.new.reserve 2).map (fun p => p.1.capacity) = some 25 ∧
    next_power_of_two 25 = 32 ∧ (∀ k : Nat, 2 ^ k ≠ 25) := by
  refine ⟨by decide, by norm_num [next_power_of_two, Nat.log2], ?_⟩
  intro k
  rcases Nat.lt_or_ge k 5 with hk | hk
  · interval_cases k <;> decide
  · have h32 : (2 : Nat) ^ 5 ≤ 2 ^ k := Nat.pow_le_pow_right (by omega) hk
    norm_num at h32 ⊢
    omega

/-- C8 amended: when push_str must grow, the capacity it requests is
next_power_of_two of the new length — an inline-to-heap promotion allocates
exactly that, and a heap reallocation reaches at least that (String::reserve
may amortize beyond it); reserve(additional), by contrast, requests exactly
capacity + additional with no power-of-two rounding. -/
theorem c8_growth_policy (i : Inline) (h : Heap) (t : List Nat) (n : Nat)
    (hwi : Inline.wf i) (hwh : Heap.wf h) :
    (INLINE_CAPACITY < low7 i.len + t.length → low7 i.len + t.length ≤ 2 ^ 62 →
      ∃ w ev, (IString.inline i).push_str t = some (w, ev) ∧
        w.capacity = next_power_of_two (low7 i.len + t.length)) ∧
    (h.cap < h.len + t.length → h.len + t.length ≤ 2 ^ 62 →
      ∃ w ev, (IString.heap h).push_str t = some (w, ev) ∧
        next_power_of_two (h.len + t.length) ≤ w.capacity) ∧
    (0 < n → INLINE_CAPACITY + n < MAX_CAPACITY →
      ∃ w ev, (IString.inline i).reserve n = some (w, ev) ∧
        w.capacity = INLINE_CAPACITY + n) := by
  refine ⟨?_, ?_, ?_⟩
  · intro hgrow hbound
    refine ⟨_, _, pushStr_inline_grow hwi hgrow hbound, ?_⟩
    rw [capacity_heap_lt (show low7 i.len + t.length < 2 ^ 63 by
      have h63 : (2 : Nat) ^ 62 < 2 ^ 63 := by norm_num
      omega)]
  · intro hgrow hbound
    have hnp := le_next_power_of_two (h.len + t.length)
    refine ⟨_, _, pushStr_heap_grow hwh hgrow hbound, ?_⟩
    rw [capacity_heap_lt (show h.len + t.length < 2 ^ 63 by
      have h63 : (2 : Nat) ^ 62 < 2 ^ 63 := by norm_num
      omega)]
    show next_power_of_two (h.len + t.length) ≤
      max 8 (max (2 * h.cap) (next_power_of_two (h.len + t.length)))
    exact le_trans (le_max_right (2 * h.cap) _) (le_max_right 8 _)
  · intro hn hmax
    have hl := low7_le hwi
    refine ⟨.heap ⟨freshPtr, INLINE_CAPACITY + n, low7 i.len,
      i.data.take (low7 i.len) ++ List.replicate (INLINE_CAPACITY + n - low7 i.len) 0⟩,
      [Event.alloc freshPtr (INLINE_CAPACITY + n)], ?_, ?_⟩
    · simp only [IString.reserve, capacity_inline hwi, wf_is_inline_inline hwi, if_true]
      rw [if_pos (by omega)]
      rw [move_to_heap_inline hwi (by omega) (by omega) hmax]
    · rw [capacity_heap_lt (show low7 i.len < 2 ^ 63 by
        have hc : low7 i.len ≤ INLINE_CAPACITY := hl
        simp only [INLINE_CAPACITY] at hc
        omega)]

/-- C8 witness: the reserve clause of the amended growth policy at a concrete
inline value. -/
theorem c8_growth_policy_witness :
    Inline.wf ⟨List.replicate 23 0, 128⟩ ∧
    Heap.wf ⟨2, 26, 26, List.replicate 26 65⟩ ∧ (0 : Nat) < 2 ∧
    INLINE_CAPACITY + 2 < MAX_CAPACITY ∧
    (∃ w ev, (IString.inline ⟨List.replicate 23 0, 128⟩).reserve 2 = some (w, ev) ∧
      w.capacity = INLINE_CAPACITY + 2) :=
  ⟨by decide, by decide, by decide, by decide,
    (c8_growth_policy ⟨List.replicate 23 0, 128⟩ ⟨2, 26, 26, List.replicate 26 65⟩ [] 2
      (by decide) (by decide)).2.2 (by decide) (by decide)⟩

/-- C9 counterexample: truncate(5) on the 12-byte value built from
"Hello World!" completes normally, adjusting the length to 5 and keeping the
prefix, instead of panicking. -/
theorem c9_truncate_counterexample :
    ((IString.fromStr [72, 101, 108, 108, 111, 32, 87, 111, 114, 108, 100, 33]).bind
        (fun p => p.1.truncate 5)).map (fun w => (w.len, w.as_bytes)) =
      some (5, some [72, 101, 108, 108, 111]) := by decide

/-- C9 amended: truncate(new_len) with new_len below the current length is not
fatal: it completes, setting the length to new_len and keeping the first
new_len bytes (and is a no-op when new_len is not below the length). The
operations that are fatal when asked for less than the current length are the
capacity changes resize and move_to_heap. -/
theorem c9_truncate_behavior (v : IString) (n : Nat) (b : List Nat) (h : Heap) (i : Inline)
    (hw : v.wf) (hb : v.as_bytes = some b) (hwh : Heap.wf h) (hwi : Inline.wf i) :
    (∃ w, v.truncate n = some w ∧ w.len = min n v.len ∧ w.as_bytes = some (b.take n)) ∧
    (n < h.len → (IString.heap h).resize n = none) ∧
    (n < low7 i.len → (IString.inline i).move_to_heap n = none) := by
  refine ⟨?_, ?_, ?_⟩
  · by_cases hlt : n < v.len
    · cases v with
      | inline i2 =>
        have hl := low7_le hw
        have hlen := len_inline hw
        rw [hlen] at hlt
        have hn : n ≤ INLINE_CAPACITY := by omega
        have hw2 : Inline.wf ⟨i2.data, withBit7 n⟩ := wf_mk_inline hw.1 hn
        have hlow : low7 (withBit7 n) = n :=
          low7_withBit7 (by simp only [INLINE_CAPACITY] at hn; omega)
        rw [as_bytes_inline hw] at hb
        simp only [Option.some.injEq] at hb
        subst hb
        refine ⟨.inline ⟨i2.data, withBit7 n⟩, ?_, ?_, ?_⟩
        · simp only [IString.truncate]
          rw [if_pos (by rw [hlen]; exact hlt), set_len_inline hw hn]
        · rw [len_inline hw2, hlow, hlen]
          omega
        · rw [as_bytes_inline hw2, hlow, List.take_take, min_eq_left (by omega)]
      | heap hp =>
        have hlen := len_heap hw
        rw [hlen] at hlt
        have hn : n ≤ hp.cap := by
          have := hw.1
          omega
        have hw2 : Heap.wf { hp with len := n } := heap_wf_mk hn hw.2.1 hw.2.2
        rw [as_bytes_heap hw] at hb
        simp only [Option.some.injEq] at hb
        subst hb
        refine ⟨.heap { hp with len := n }, ?_, ?_, ?_⟩
        · simp only [IString.truncate]
          rw [if_pos (by rw [hlen]; exact hlt), set_len_heap hw hn]
        · rw [len_heap hw2]
          show n = min n (IString.heap hp).len
          rw [hlen]
          omega
        · rw [as_bytes_heap hw2, List.take_take, min_eq_left (by omega)]
    · refine ⟨v, ?_, ?_, ?_⟩
      · simp only [IString.truncate]
        rw [if_neg hlt]
      · omega
      · rw [hb, List.take_of_length_le (by rw [as_bytes_length hw hb]; omega)]
  · intro hlt
    simp only [IString.resize, wf_is_inline_heap hwh, Bool.false_eq_true, if_false,
      len_heap hwh]
    rw [if_neg (by omega)]
  · intro hlt
    simp only [IString.move_to_heap, wf_is_inline_inline hwi, len_inline hwi, if_true]
    rw [if_neg (by omega)]

/-- C9 witness: the amended truncate behavior at a concrete value. -/
theorem c9_truncate_behavior_witness :
    (IString.heap ⟨7, 26, 26, List.replicate 26 65⟩).wf ∧
    (IString.heap ⟨7, 26, 26, List.replicate 26 65⟩).as_bytes =
      some (List.replicate 26 65) ∧
    Heap.wf ⟨7, 26, 26, List.replicate 26 65⟩ ∧
    Inline.wf ⟨List.replicate 23 66, 133⟩ ∧
    (∃ w, (IString.heap ⟨7, 26, 26, List.replicate 26 65⟩).truncate 5 = some w ∧
      w.len = min 5 (IString.heap ⟨7, 26, 26, List.replicate 26 65⟩).len ∧
      w.as_bytes = some ((List.replicate 26 65 : List Nat).take 5)) :=
  ⟨by decide, by decide, by decide, by decide,
    (c9_truncate_behavior (IString.heap ⟨7, 26, 26, List.replicate 26 65⟩) 5
      (List.replicate 26 65) ⟨7, 26, 26, List.replicate 26 65⟩ ⟨List.replicate 23 66, 133⟩
      (by decide) (by decide) (by decide) (by decide)).1⟩

/-- C10 (code bug exhibit): shrink on an already-inline value does not leave it
unchanged: missing the is_inline check, it copies union.heap — reinterpreting
the inline text bytes as a Heap — then reads len bytes through that garbage
pointer and hands ptr/cap to the deallocator. For the inline value built from
"Hello World!", the reinterpreted pointer/capacity are the byte values of
"Hello Wo" and "rld!" (8022916924116329800 and 560229490); the model marks the
wild read/free as the undefined-behaviour outcome none, not a no-op. -/
theorem c10_shrink_inline_reinterprets :
    ((IString.fromStr [72, 101, 108, 108, 111, 32, 87, 111, 114, 108, 100, 33]).map
        (fun p => p.1.is_inline)) = some true ∧
    ((IString.fromStr [72, 101, 108, 108, 111, 32, 87, 111, 114, 108, 100, 33]).bind
        (fun p => p.1.shrink)) = none ∧
    ((IString.fromStr [72, 101, 108, 108, 111, 32, 87, 111, 114, 108, 100, 33]).map
        (fun p => match p.1 with
          | .inline i => (i.asHeapView.ptr, i.asHeapView.cap)
          | .heap _ => (0, 0))) = some (8022916924116329800, 560229490) :=
  ⟨by decide, by decide, by decide⟩
